import Mathlib

/-!
Shallow embedding of the EPUB content-range extraction engine of
`src/text_to_speach/file_parser/mod.rs` (book2pod-rss).

The embedded functions follow the Rust source line by line:
`extract_positions`, `filter_page_to_iterate_over` and the body of
`EpubParserV2::extract_text_for_chapters` (the per-page xml token walk and
the cross-page orchestration).  The external collaborators (the epub
container) are modelled as function-valued fields of a `Book` structure:
`resolve` stands for `resource_uri_to_chapter` and `pageContent` for
`set_current_page` + `get_current_str` + the xml tokenizer.  `PathBuf`
values are modelled as strings compared by string equality.  A Rust panic
(the `element_stack.len() - 1` underflow / `get(i).unwrap()` on `None`)
is modelled by the explicit result `ExtractErr.panicked`.
-/

/-- One xml attribute, mirroring `OwnedAttribute` (`name.local_name`, `value`). -/
structure OwnedAttribute where
  name : String
  value : String
deriving DecidableEq, Repr

/-- The xml events the Rust walk distinguishes.  `errTok` stands for an
`Err` item produced by the tokenizer, `other` for the ignored event kinds. -/
inductive XmlTok where
  | characters (s : String)
  | startElement (name : String) (attributes : List OwnedAttribute)
  | endElement (name : String)
  | other
  | errTok
deriving DecidableEq, Repr

/-- Mirrors the Rust `EpubElement { name, attributes }`. -/
structure EpubElement where
  name : String
  attributes : List OwnedAttribute
deriving DecidableEq, Repr

/-- Mirrors the Rust `Content { id, order, name }` toc entry. -/
structure Content where
  id : String
  order : Nat
  name : String
deriving DecidableEq, Repr

/-- The failures of `extract_text_for_chapters`: the (dead) "id is not
correct" branch, "no chapter found", "chapter has no content!", a tokenizer
error, and a Rust panic. -/
inductive ExtractErr where
  | malformedId
  | noChapter
  | noContent
  | parseFailure
  | panicked
deriving DecidableEq, Repr

/-- Rust `s.splitn(2, '#').collect::<Vec<&str>>()`: one element when `s`
has no `'#'`, otherwise the part before the first `'#'` and the rest. -/
def splitn2Hash (s : String) : List String :=
  let pre := s.toList.takeWhile (fun c => c ≠ '#')
  match s.toList.dropWhile (fun c => c ≠ '#') with
  | [] => [String.mk pre]
  | _ :: rest => [String.mk pre, String.mk rest]

/-- The document-path component of an id: everything before the first `'#'`. -/
def pathOf (s : String) : String :=
  String.mk (s.toList.takeWhile (fun c => c ≠ '#'))

/-- The fragment component of an id: what follows the first `'#'`, if any. -/
def fragOf (s : String) : Option String :=
  match s.toList.dropWhile (fun c => c ≠ '#') with
  | [] => none
  | _ :: rest => some (String.mk rest)

/-- Mirrors the Rust `extract_positions`: splits `from_id` (and `to_id`
when present) at the first `'#'`; the `ok_or` branches on `first()` are
kept although `splitn` never yields an empty vector.  Returns
`(from_uri, from_tag, to_tag, to_uri)` in the Rust tuple order. -/
def extract_positions (from_id : String) (to_id : Option String) :
    Except ExtractErr (String × Option String × Option String × Option String) :=
  let from_split := splitn2Hash from_id
  match from_split.head? with
  | none => .error .malformedId
  | some from_uri =>
    let from_tag := from_split[1]?
    match to_id with
    | none => .ok (from_uri, from_tag, none, none)
    | some id =>
      let to_split := splitn2Hash id
      match to_split.head? with
      | none => .error .malformedId
      | some to_uri =>
        .ok (from_uri, from_tag, to_split[1]?, some to_uri)

/-- Mirrors the Rust `filter_page_to_iterate_over`: skip entries while the
path component of `e.id` differs from `from_uri`, then take entries while
`to_uri` is absent or the *full* `e.id` differs from `to_uri`. -/
def filter_page_to_iterate_over (toc : List Content) (from_uri : String)
    (to_uri : Option String) : List Content :=
  (toc.dropWhile (fun e =>
      match (splitn2Hash e.id).head? with
      | some s => decide (s ≠ from_uri)
      | none => false)).takeWhile (fun e =>
      match to_uri with
      | none => true
      | some u => decide (e.id ≠ u))

/-- Modelled from the spec, for comparison with the code's range filter
(§4.2): the sub-sequence starting at the first entry whose document-path
component equals `fromPath`, ending immediately before the first entry
whose *full* id equals `toId`, or running to the end if `toId` is absent. -/
def filterRangeSpec (toc : List Content) (fromPath : String)
    (toId : Option String) : List Content :=
  match toId with
  | none => toc.dropWhile (fun e => decide (pathOf e.id ≠ fromPath))
  | some tid =>
    (toc.dropWhile (fun e => decide (pathOf e.id ≠ fromPath))).takeWhile
      (fun e => decide (e.id ≠ tid))

/-- The fixed element-exclusion set of the character-data branch. -/
def excludedName (n : String) : Bool :=
  n == "img" || n == "media" || n == "script" || n == "video" || n == "audio" ||
  n == "object" || n == "embed" || n == "iframe" || n == "source" || n == "track" ||
  n == "svg"

/-- The first start-tag condition: some attribute named `id` has value
equal to the start anchor's fragment and the current page equals the start
anchor's document path. -/
def startMatchesFrom (attrs : List OwnedAttribute) (from_tag : Option String)
    (contentUri from_uri : String) : Bool :=
  attrs.any fun e => e.name == "id" && some e.value == from_tag && contentUri == from_uri

/-- The second start-tag condition: some attribute named `id` has value
equal to the stop anchor's fragment and the current page equals the stop
anchor's document path. -/
def startMatchesTo (attrs : List OwnedAttribute) (to_tag : Option String)
    (contentUri : String) (to_uri : Option String) : Bool :=
  attrs.any fun e => e.name == "id" && some e.value == to_tag && some contentUri == to_uri

/-- The Rust end-tag loop `for i in 0..element_stack.len() - 1`: on an
empty stack `len() - 1` underflows (panic, modelled as `none`); otherwise
the first entry at an index strictly below the last whose name matches is
removed, and the stack is unchanged when no such entry matches. -/
def endTagRemove (n : String) (stack : List EpubElement) :
    Option (List EpubElement) :=
  match stack with
  | [] => none
  | _ :: _ =>
    match stack.dropLast.findIdx? (fun e => e.name == n) with
    | some i => some (stack.eraseIdx i)
    | none => some stack

/-- The mutable state of the walk: the `skip_text` flag, the per-page
`element_stack` (oldest entry first, as in the Rust `Vec`), and the
accumulated `final_string`. -/
structure WalkState where
  skipText : Bool
  stack : List EpubElement
  acc : String
deriving DecidableEq, Repr

/-- Outcome of walking (part of) one page's token stream: fall through to
the next token/page, early `return Ok(final_string)` on the stop tag, or a
failure (tokenizer error / panic). -/
inductive PageResult where
  | cont (st : WalkState)
  | stop (out : String)
  | fail (e : ExtractErr)
deriving DecidableEq, Repr

/-- One iteration of the Rust `for xml_event in page_xml` match. -/
def walkStep (contentUri from_uri : String) (from_tag to_tag : Option String)
    (to_uri : Option String) (st : WalkState) : XmlTok → PageResult
  | .characters c =>
    if !st.skipText && !(st.stack.any fun e => excludedName e.name) then
      .cont { st with acc := st.acc ++ c ++ "\n" }
    else
      .cont st
  | .startElement n attrs =>
    let st1 := if startMatchesFrom attrs from_tag contentUri from_uri then
        { st with skipText := false }
      else st
    if startMatchesTo attrs to_tag contentUri to_uri then
      .stop st1.acc
    else
      .cont { st1 with stack := st1.stack ++ [⟨n, attrs⟩] }
  | .endElement n =>
    match endTagRemove n st.stack with
    | none => .fail .panicked
    | some s => .cont { st with stack := s }
  | .other => .cont st
  | .errTok => .fail .parseFailure

/-- The whole per-page token walk. -/
def walkPage (contentUri from_uri : String) (from_tag to_tag : Option String)
    (to_uri : Option String) : List XmlTok → WalkState → PageResult
  | [], st => .cont st
  | t :: ts, st =>
    match walkStep contentUri from_uri from_tag to_tag to_uri st t with
    | .cont st1 => walkPage contentUri from_uri from_tag to_tag to_uri ts st1
    | .stop out => .stop out
    | .fail e => .fail e

/-- The epub container collaborator: `resolve` models
`resource_uri_to_chapter`, `pageContent` models selecting the page and
tokenizing `get_current_str`. -/
structure Book where
  resolve : String → Option Nat
  pageContent : Nat → Option (List XmlTok)

/-- The cross-page mutable state of `extract_text_for_chapters`:
`final_string`, `skip_text`, the `scanned_pages` set, and (as an
observation for the scan-once guarantee) the ordered trace of pages
actually fetched and walked. -/
structure LoopState where
  acc : String
  skipText : Bool
  visited : List Nat
  walked : List Nat
deriving Repr

/-- The extraction outcome (`Result<String>`). -/
inductive ExtractOutcome where
  | ok (s : String)
  | err (e : ExtractErr)
deriving DecidableEq, Repr

/-- The `for content in content_to_read` loop of
`extract_text_for_chapters`, returning the outcome together with the trace
of pages that were fetched and walked. -/
def extractLoop (book : Book) (from_uri : String) (from_tag to_tag : Option String)
    (to_uri : Option String) : List Content → LoopState → ExtractOutcome × List Nat
  | [], st => (.ok st.acc, st.walked)
  | c :: cs, st =>
    match (splitn2Hash c.id).head? with
    | none => (.err .malformedId, st.walked)
    | some contentUri =>
      match book.resolve contentUri with
      | none => (.err .noChapter, st.walked)
      | some page =>
        if st.visited.contains page then
          extractLoop book from_uri from_tag to_tag to_uri cs st
        else
          match book.pageContent page with
          | none => (.err .noContent,
              (st.walked ++ [page]))
          | some toks =>
            match walkPage contentUri from_uri from_tag to_tag to_uri toks
                { skipText := st.skipText, stack := [], acc := st.acc } with
            | .cont w =>
              extractLoop book from_uri from_tag to_tag to_uri cs
                { acc := w.acc, skipText := w.skipText,
                  visited := page :: st.visited, walked := st.walked ++ [page] }
            | .stop out => (.ok out, st.walked ++ [page])
            | .fail e => (.err e, st.walked ++ [page])

/-- The function `extract_text_for_chapters` with the walked-page trace exposed:
parse the anchors, sort the toc by play order (stable), filter the range,
then run the page loop from `final_string = ""`,
`skip_text = from_tag.is_some()`, empty `scanned_pages`. -/
def extract_text_for_chapters_traced (book : Book) (toc : List Content)
    (from_id : String) (to_id : Option String) : ExtractOutcome × List Nat :=
  match extract_positions from_id to_id with
  | .error e => (.err e, [])
  | .ok (from_uri, from_tag, to_tag, to_uri) =>
    let sorted := toc.mergeSort (fun a b => a.order ≤ b.order)
    let content := filter_page_to_iterate_over sorted from_uri to_uri
    extractLoop book from_uri from_tag to_tag to_uri content
      { acc := "", skipText := from_tag.isSome, visited := [], walked := [] }

/-- The result of `extract_text_for_chapters` as the caller sees it. -/
def extract_text_for_chapters (book : Book) (toc : List Content)
    (from_id : String) (to_id : Option String) : ExtractOutcome :=
  (extract_text_for_chapters_traced book toc from_id to_id).1

/-- Depth check for a token stream: every end-element event occurs at a
strictly positive element depth, as the well-formedness-enforcing
tokenizer guarantees (each end tag is preceded by its matching start tag). -/
def streamBalanced (d : Nat) : List XmlTok → Bool
  | [] => true
  | .startElement _ _ :: ts => streamBalanced (d + 1) ts
  | .endElement _ :: ts => decide (0 < d) && streamBalanced (d - 1) ts
  | _ :: ts => streamBalanced d ts

/-! ### Basic facts about the anchor splitting -/

theorem splitn2Hash_head (s : String) :
    (splitn2Hash s).head? = some (pathOf s) := by
  unfold splitn2Hash pathOf
  cases s.toList.dropWhile (fun c => c ≠ '#') <;> simp

theorem splitn2Hash_get1 (s : String) :
    (splitn2Hash s)[1]? = fragOf s := by
  unfold splitn2Hash fragOf
  cases s.toList.dropWhile (fun c => c ≠ '#') <;> simp

theorem splitn2Hash_ne_nil (s : String) : splitn2Hash s ≠ [] := by
  unfold splitn2Hash
  cases s.toList.dropWhile (fun c => c ≠ '#') <;> simp

/-- The function `extract_positions` always succeeds and returns the components obtained
by splitting at the first `'#'`; its error branches are dead code. -/
theorem extract_positions_spec (from_id : String) (to_id : Option String) :
    extract_positions from_id to_id =
      .ok (pathOf from_id, fragOf from_id, to_id.bind fragOf, to_id.map pathOf) := by
  cases to_id with
  | none => simp only [extract_positions, splitn2Hash_head, splitn2Hash_get1]; rfl
  | some id => simp only [extract_positions, splitn2Hash_head, splitn2Hash_get1]; rfl

/-! ### Claim C7: anchor-identifier parsing -/

/-- C7 counterexample: on the empty identifier (and on an identifier with
an empty path portion) `extract_positions` succeeds with an empty document
path instead of failing: `splitn` never yields an empty vector, so the
malformed-identifier branch is unreachable. -/
theorem claim7_empty_id_parses_ok :
    extract_positions "" none = .ok ("", none, none, none) ∧
    extract_positions "#frag" none = .ok ("", some "frag", none, none) :=
  ⟨rfl, rfl⟩

/-- C7 (amended): anchor-identifier parsing never fails; every input —
the empty string and identifiers with an empty path portion included — is
split at the first `'#'` into the (documentPath, optionalFragment) pair,
and the `MalformedIdentifier` error branch is unreachable. -/
theorem claim7_anchor_parse_amended (from_id : String) (to_id : Option String) :
    extract_positions from_id to_id =
      .ok (pathOf from_id, fragOf from_id, to_id.bind fragOf, to_id.map pathOf) :=
  extract_positions_spec from_id to_id

/-! ### Claim C3: end-tag handling -/

/-- C3 (code bug): the Rust loop `for i in 0..element_stack.len() - 1`
never examines the most recently pushed stack entry, so after `<a></a>`
the element `a` is still on the stack: the end tag of the newest entry
does not remove it, contradicting the claimed scan over the whole stack
from the oldest entry. -/
theorem claim3_top_entry_not_removed :
    endTagRemove "a" [⟨"a", []⟩] = some [⟨"a", []⟩] ∧
    walkPage "p" "p" none none none
      [.startElement "a" [], .endElement "a"] ⟨false, [], ""⟩ =
      .cont ⟨false, [⟨"a", []⟩], ""⟩ := by
  constructor <;> decide

/-! ### Claim C4: the element-exclusion filter -/

/-- C4 (code bug): in `<body><script>inside</script>after</body>` with
collecting on, the text "after" sits at the same nesting level immediately
after the `script` element's end tag, yet the walk emits nothing: the
end-tag scan (`0..len() - 1`) never removes the just-pushed `script`, so
`script` is still on the stack when "after" is reached and the exclusion
filter suppresses it, contradicting the claim that such text appears. -/
theorem claim4_text_after_excluded_end_suppressed :
    walkPage "p" "p" none none none
      [.startElement "body" [], .startElement "script" [], .characters "inside",
       .endElement "script", .characters "after", .endElement "body"]
      ⟨false, [], ""⟩ =
      .cont ⟨false, [⟨"script", []⟩], ""⟩ := by
  decide

/-! ### Claim C2: the table-of-contents range filter -/

theorem dropWhile_eq_drop_idx {α : Type} (p : α → Bool) (l : List α) :
    ∀ (i : Nat) (hi : i < l.length),
      (∀ k (hk : k < l.length), k < i → p l[k] = true) →
      p l[i] = false → l.dropWhile p = l.drop i := by
  induction l with
  | nil => intro i hi; simp at hi
  | cons x xs ih =>
    intro i hi hall hfalse
    cases i with
    | zero =>
      simp only [List.getElem_cons_zero] at hfalse
      simp [List.dropWhile, hfalse]
    | succ n =>
      have hx : p x = true := hall 0 (by simp) (by omega)
      simp only [List.dropWhile, hx, List.drop_succ_cons]
      exact ih n (by simpa using hi)
        (fun k hk hlt => by
          have := hall (k + 1) (by simpa using hk) (by omega)
          simpa using this)
        (by simpa using hfalse)

theorem takeWhile_eq_take_idx {α : Type} (p : α → Bool) (l : List α) :
    ∀ (i : Nat) (hi : i < l.length),
      (∀ k (hk : k < l.length), k < i → p l[k] = true) →
      p l[i] = false → l.takeWhile p = l.take i := by
  induction l with
  | nil => intro i hi; simp at hi
  | cons x xs ih =>
    intro i hi hall hfalse
    cases i with
    | zero =>
      simp only [List.getElem_cons_zero] at hfalse
      simp [List.takeWhile, hfalse]
    | succ n =>
      have hx : p x = true := hall 0 (by simp) (by omega)
      simp only [List.takeWhile, hx, List.take_succ_cons]
      rw [ih n (by simpa using hi)
        (fun k hk hlt => by
          have := hall (k + 1) (by simpa using hk) (by omega)
          simpa using this)
        (by simpa using hfalse)]

theorem pathOf_eq_self_of_fragOf_none (s : String) (h : fragOf s = none) :
    pathOf s = s := by
  unfold fragOf at h
  unfold pathOf
  cases hd : s.toList.dropWhile (fun c => c ≠ '#') with
  | nil =>
    have htk : s.toList.takeWhile (fun c => c ≠ '#') = s.toList := by
      have := List.takeWhile_append_dropWhile (fun c => c ≠ '#') s.toList
      rw [hd, List.append_nil] at this
      exact this
    rw [htk]
    rfl
  | cons c rest => rw [hd] at h; simp at h

theorem nodup_ids_getElem_ne (toc : List Content)
    (hnodup : (toc.map Content.id).Nodup) (k m : Nat)
    (hk : k < toc.length) (hm : m < toc.length) (hne : k ≠ m) :
    toc[k].id ≠ toc[m].id := by
  intro he
  have hk2 : k < (toc.map Content.id).length := by simpa using hk
  have hm2 : m < (toc.map Content.id).length := by simpa using hm
  have : (toc.map Content.id)[k] = (toc.map Content.id)[m] := by
    simpa [List.getElem_map] using he
  exact hne (List.Nodup.getElem_inj_iff hnodup |>.mp this)

/-- C2 counterexample: with toc `[{id "a"}, {id "b#f"}]`, `fromId = "a"`,
`toId = "b#f"`, the code's filter compares full entry ids against the stop
anchor's *path* `"b"`, so the entry with full id `"b#f"` (equal to `toId`)
is NOT cut off and the filter keeps both entries, while the claim demands
the range to end immediately before it. -/
theorem claim2_range_filter_counterexample :
    extract_positions "a" (some "b#f") = .ok ("a", none, some "f", some "b") ∧
    filter_page_to_iterate_over [⟨"a", 0, "x"⟩, ⟨"b#f", 1, "y"⟩] "a" (some "b") =
      [⟨"a", 0, "x"⟩, ⟨"b#f", 1, "y"⟩] ∧
    filterRangeSpec [⟨"a", 0, "x"⟩, ⟨"b#f", 1, "y"⟩] "a" (some "b#f") =
      [⟨"a", 0, "x"⟩] ∧
    filter_page_to_iterate_over [⟨"a", 0, "x"⟩, ⟨"b#f", 1, "y"⟩] "a" (some "b") ≠
      filterRangeSpec [⟨"a", 0, "x"⟩, ⟨"b#f", 1, "y"⟩] "a" (some "b#f") :=
  ⟨rfl, by decide, by decide, by decide⟩

/-- C2 (amended): the range filter starts at the first entry whose
document-path component equals `fromPath` and ends immediately before the
first entry at or after it whose *full* id equals the stop anchor's
document-path component (this coincides with `toId` exactly when `toId`
carries no fragment).  In particular, for a toc of fragment-free, pairwise
distinct ids, filtering from entry `i` to entry `j` (`i < j`) returns
exactly the entries `[i, j)`. -/
theorem claim2_range_filter_amended (toc : List Content) (i j : Nat)
    (hi : i < toc.length) (hj : j < toc.length) (hij : i < j)
    (hnohash : ∀ e ∈ toc, fragOf e.id = none)
    (hnodup : (toc.map Content.id).Nodup)
    (fu : String) (ft tt : Option String) (tu : Option String)
    (hpos : extract_positions toc[i].id (some toc[j].id) = .ok (fu, ft, tt, tu)) :
    filter_page_to_iterate_over toc fu tu = (toc.drop i).take (j - i) := by
  rw [extract_positions_spec] at hpos
  have hfu : fu = toc[i].id := by
    have := (Except.ok.injEq _ _).mp hpos
    rw [pathOf_eq_self_of_fragOf_none _ (hnohash _ (List.getElem_mem hi))] at this
    exact (congrArg Prod.fst this).symm
  have htu : tu = some toc[j].id := by
    have := (Except.ok.injEq _ _).mp hpos
    have h2 : some (pathOf toc[j].id) = tu := by
      have h3 := congrArg (fun q => q.2.2.2) this
      simpa using h3
    rw [pathOf_eq_self_of_fragOf_none _ (hnohash _ (List.getElem_mem hj))] at h2
    exact h2.symm
  subst hfu htu
  unfold filter_page_to_iterate_over
  have hpath : ∀ (e : Content), e ∈ toc → pathOf e.id = e.id := fun e he =>
    pathOf_eq_self_of_fragOf_none _ (hnohash e he)
  have hdrop :
      toc.dropWhile (fun e =>
        match (splitn2Hash e.id).head? with
        | some s => decide (s ≠ toc[i].id)
        | none => false) = toc.drop i := by
    apply dropWhile_eq_drop_idx _ _ i hi
    · intro k hk hlt
      simp only [splitn2Hash_head, hpath _ (List.getElem_mem hk)]
      exact decide_eq_true
        (nodup_ids_getElem_ne toc hnodup k i hk hi (Nat.ne_of_lt hlt))
    · simp only [splitn2Hash_head, hpath _ (List.getElem_mem hi)]
      simp
  rw [hdrop]
  have hlen : (toc.drop i).length = toc.length - i := List.length_drop i toc
  have hji : j - i < (toc.drop i).length := by omega
  apply takeWhile_eq_take_idx _ _ (j - i) hji
  · intro k hk hlt
    have hik : i + k < toc.length := by omega
    have hgd : (toc.drop i)[k] = toc[i + k] := by
      rw [List.getElem_drop]
    simp only [hgd]
    exact decide_eq_true
      (nodup_ids_getElem_ne toc hnodup (i + k) j hik hj (by omega))
  · have hgd : (toc.drop i)[j - i] = toc[j] := by
      rw [List.getElem_drop]
      congr 1
      omega
    simp only [hgd]
    simp

/-- C2 witness: filtering the fragment-free toc `["a", "b", "c"]` from
entry 0 to entry 1 returns exactly entry 0. -/
theorem claim2_range_filter_amended_witness :
    filter_page_to_iterate_over
      [⟨"a", 0, "x"⟩, ⟨"b", 1, "y"⟩, ⟨"c", 2, "z"⟩] "a" (some "b") =
      [⟨"a", 0, "x"⟩] :=
  claim2_range_filter_amended
    [⟨"a", 0, "x"⟩, ⟨"b", 1, "y"⟩, ⟨"c", 2, "z"⟩] 0 1
    (by decide) (by decide) (by decide) (by decide) (by decide)
    "a" none none (some "b") rfl

/-! ### Structure lemmas about the per-page walk -/

theorem walkPage_append (cu fu : String) (ft tt : Option String)
    (tu : Option String) (pre post : List XmlTok) :
    ∀ st, walkPage cu fu ft tt tu (pre ++ post) st =
      match walkPage cu fu ft tt tu pre st with
      | .cont st1 => walkPage cu fu ft tt tu post st1
      | .stop out => .stop out
      | .fail e => .fail e := by
  induction pre with
  | nil => intro st; simp [walkPage]
  | cons t ts ih =>
    intro st
    simp only [List.cons_append, walkPage]
    cases walkStep cu fu ft tt tu st t with
    | cont st1 => exact ih st1
    | stop out => rfl
    | fail e => rfl

/-- While `skip_text` is true and no start tag of the stream satisfies the
start-anchor condition, the walk appends nothing to the buffer and
`skip_text` stays true; an early stop returns exactly the incoming buffer. -/
theorem walk_skipTrue (cu fu : String) (ft tt : Option String)
    (tu : Option String) (toks : List XmlTok) :
    ∀ (st : WalkState), st.skipText = true →
      (∀ n attrs, XmlTok.startElement n attrs ∈ toks →
        startMatchesFrom attrs ft cu fu = false) →
      (match walkPage cu fu ft tt tu toks st with
       | .cont st1 => st1.acc = st.acc ∧ st1.skipText = true
       | .stop out => out = st.acc
       | .fail _ => True) := by
  induction toks with
  | nil => intro st hskip _; simp [walkPage, hskip]
  | cons t ts ih =>
    intro st hskip hmatch
    have hmatch2 : ∀ n attrs, XmlTok.startElement n attrs ∈ ts →
        startMatchesFrom attrs ft cu fu = false :=
      fun n attrs hmem => hmatch n attrs (List.mem_cons_of_mem _ hmem)
    cases t with
    | characters c =>
      have hstep : walkStep cu fu ft tt tu st (.characters c) = .cont st := by
        simp [walkStep, hskip]
      simp only [walkPage, hstep]
      exact ih st hskip hmatch2
    | startElement n attrs =>
      have hfm : startMatchesFrom attrs ft cu fu = false :=
        hmatch n attrs (List.mem_cons_self _ _)
      by_cases hto : startMatchesTo attrs tt cu tu = true
      · have hstep : walkStep cu fu ft tt tu st (.startElement n attrs) =
            .stop st.acc := by
          simp [walkStep, hfm, hto]
        simp only [walkPage, hstep]
      · have hstep : walkStep cu fu ft tt tu st (.startElement n attrs) =
            .cont { st with stack := st.stack ++ [⟨n, attrs⟩] } := by
          simp [walkStep, hfm, Bool.not_eq_true _ ▸ hto,
            eq_false_of_ne_true hto]
        simp only [walkPage, hstep]
        have := ih { st with stack := st.stack ++ [⟨n, attrs⟩] } hskip hmatch2
        simpa using this
    | endElement n =>
      cases hrem : endTagRemove n st.stack with
      | none =>
        have hstep : walkStep cu fu ft tt tu st (.endElement n) =
            .fail .panicked := by
          simp [walkStep, hrem]
        simp only [walkPage, hstep]
      | some s =>
        have hstep : walkStep cu fu ft tt tu st (.endElement n) =
            .cont { st with stack := s } := by
          simp [walkStep, hrem]
        simp only [walkPage, hstep]
        have := ih { st with stack := s } hskip hmatch2
        simpa using this
    | other =>
      have hstep : walkStep cu fu ft tt tu st .other = .cont st := rfl
      simp only [walkPage, hstep]
      exact ih st hskip hmatch2
    | errTok =>
      have hstep : walkStep cu fu ft tt tu st .errTok = .fail .parseFailure := rfl
      simp only [walkPage, hstep]

theorem length_eraseIdx_ge {α : Type} :
    ∀ (l : List α) (i : Nat), l.length - 1 ≤ (l.eraseIdx i).length := by
  intro l
  induction l with
  | nil => intro i; simp [List.eraseIdx]
  | cons x xs ih =>
    intro i
    cases i with
    | zero => simp [List.eraseIdx]
    | succ n =>
      simp only [List.eraseIdx, List.length_cons]
      have := ih n
      omega

theorem endTagRemove_some (n : String) (stack : List EpubElement)
    (h : stack ≠ []) :
    ∃ s, endTagRemove n stack = some s ∧ stack.length - 1 ≤ s.length := by
  unfold endTagRemove
  match stack, h with
  | x :: xs, _ =>
    cases hf : (x :: xs).dropLast.findIdx? (fun e => e.name == n) with
    | none => exact ⟨x :: xs, rfl, by simp⟩
    | some i => exact ⟨(x :: xs).eraseIdx i, rfl, length_eraseIdx_ge _ i⟩

/-- On a stream where every end-element event occurs at positive depth,
the walk never panics: the `element_stack.len() - 1` computation never
underflows, because every start tag pushes an entry and each end tag
removes at most one. -/
theorem walk_no_panic (cu fu : String) (ft tt : Option String)
    (tu : Option String) (toks : List XmlTok) :
    ∀ (d : Nat) (st : WalkState), streamBalanced d toks = true →
      d ≤ st.stack.length →
      walkPage cu fu ft tt tu toks st ≠ .fail .panicked := by
  induction toks with
  | nil => intro d st _ _; simp [walkPage]
  | cons t ts ih =>
    intro d st hbal hd
    cases t with
    | characters c =>
      have hbal2 : streamBalanced d ts = true := by simpa [streamBalanced] using hbal
      by_cases hc : (!st.skipText && !(st.stack.any fun e => excludedName e.name)) = true
      · have hstep : walkStep cu fu ft tt tu st (.characters c) =
            .cont { st with acc := st.acc ++ c ++ "\n" } := by simp [walkStep, hc]
        simp only [walkPage, hstep]
        exact ih d { st with acc := st.acc ++ c ++ "\n" } hbal2 hd
      · have hstep : walkStep cu fu ft tt tu st (.characters c) = .cont st := by
          simp [walkStep, hc]
        simp only [walkPage, hstep]
        exact ih d st hbal2 hd
    | startElement n attrs =>
      have hbal2 : streamBalanced (d + 1) ts = true := by
        simpa [streamBalanced] using hbal
      by_cases hto : startMatchesTo attrs tt cu tu = true
      · by_cases hfm : startMatchesFrom attrs ft cu fu = true
        · have hstep : walkStep cu fu ft tt tu st (.startElement n attrs) =
              .stop st.acc := by simp [walkStep, hfm, hto]
          simp only [walkPage, hstep]
          simp
        · have hstep : walkStep cu fu ft tt tu st (.startElement n attrs) =
              .stop st.acc := by simp [walkStep, eq_false_of_ne_true hfm, hto]
          simp only [walkPage, hstep]
          simp
      · have hto2 : startMatchesTo attrs tt cu tu = false := eq_false_of_ne_true hto
        by_cases hfm : startMatchesFrom attrs ft cu fu = true
        · have hstep : walkStep cu fu ft tt tu st (.startElement n attrs) =
              .cont ⟨false, st.stack ++ [⟨n, attrs⟩], st.acc⟩ := by
            simp [walkStep, hfm, hto2]
          simp only [walkPage, hstep]
          exact ih (d + 1) ⟨false, st.stack ++ [⟨n, attrs⟩], st.acc⟩ hbal2
            (by simp; omega)
        · have hstep : walkStep cu fu ft tt tu st (.startElement n attrs) =
              .cont { st with stack := st.stack ++ [⟨n, attrs⟩] } := by
            simp [walkStep, eq_false_of_ne_true hfm, hto2]
          simp only [walkPage, hstep]
          exact ih (d + 1) { st with stack := st.stack ++ [⟨n, attrs⟩] } hbal2
            (by simp; omega)
    | endElement n =>
      have hpos : 0 < d := by
        by_contra hle
        simp [streamBalanced, Nat.not_lt.mp (fun h => hle h)] at hbal
        omega
      have hbal2 : streamBalanced (d - 1) ts = true := by
        simp [streamBalanced] at hbal
        exact hbal.2
      have hne : st.stack ≠ [] := by
        intro hnil
        rw [hnil] at hd
        simp at hd
        omega
      obtain ⟨s, hrem, hlen⟩ := endTagRemove_some n st.stack hne
      have hstep : walkStep cu fu ft tt tu st (.endElement n) =
          .cont { st with stack := s } := by simp [walkStep, hrem]
      simp only [walkPage, hstep]
      exact ih (d - 1) { st with stack := s } hbal2 (by simp; omega)
    | other =>
      have hbal2 : streamBalanced d ts = true := by simpa [streamBalanced] using hbal
      have hstep : walkStep cu fu ft tt tu st .other = .cont st := rfl
      simp only [walkPage, hstep]
      exact ih d st hbal2 hd
    | errTok =>
      have hstep : walkStep cu fu ft tt tu st .errTok = .fail .parseFailure := rfl
      simp only [walkPage, hstep]
      simp

/-- On a depth-positive stream without tokenizer errors the walk cannot
fail at all: it either falls through or stops at the stop tag. -/
theorem walk_no_fail (cu fu : String) (ft tt : Option String)
    (tu : Option String) (toks : List XmlTok) :
    ∀ (d : Nat) (st : WalkState), streamBalanced d toks = true →
      d ≤ st.stack.length → XmlTok.errTok ∉ toks →
      ∀ e, walkPage cu fu ft tt tu toks st ≠ .fail e := by
  induction toks with
  | nil => intro d st _ _ _ e; simp [walkPage]
  | cons t ts ih =>
    intro d st hbal hd herr e
    have herr2 : XmlTok.errTok ∉ ts := fun h => herr (List.mem_cons_of_mem _ h)
    cases t with
    | characters c =>
      have hbal2 : streamBalanced d ts = true := by simpa [streamBalanced] using hbal
      by_cases hc : (!st.skipText && !(st.stack.any fun e => excludedName e.name)) = true
      · have hstep : walkStep cu fu ft tt tu st (.characters c) =
            .cont { st with acc := st.acc ++ c ++ "\n" } := by simp [walkStep, hc]
        simp only [walkPage, hstep]
        exact ih d { st with acc := st.acc ++ c ++ "\n" } hbal2 hd herr2 e
      · have hstep : walkStep cu fu ft tt tu st (.characters c) = .cont st := by
          simp [walkStep, hc]
        simp only [walkPage, hstep]
        exact ih d st hbal2 hd herr2 e
    | startElement n attrs =>
      have hbal2 : streamBalanced (d + 1) ts = true := by
        simpa [streamBalanced] using hbal
      by_cases hto : startMatchesTo attrs tt cu tu = true
      · by_cases hfm : startMatchesFrom attrs ft cu fu = true
        · have hstep : walkStep cu fu ft tt tu st (.startElement n attrs) =
              .stop st.acc := by simp [walkStep, hfm, hto]
          simp only [walkPage, hstep]
          simp
        · have hstep : walkStep cu fu ft tt tu st (.startElement n attrs) =
              .stop st.acc := by simp [walkStep, eq_false_of_ne_true hfm, hto]
          simp only [walkPage, hstep]
          simp
      · have hto2 : startMatchesTo attrs tt cu tu = false := eq_false_of_ne_true hto
        by_cases hfm : startMatchesFrom attrs ft cu fu = true
        · have hstep : walkStep cu fu ft tt tu st (.startElement n attrs) =
              .cont ⟨false, st.stack ++ [⟨n, attrs⟩], st.acc⟩ := by
            simp [walkStep, hfm, hto2]
          simp only [walkPage, hstep]
          exact ih (d + 1) ⟨false, st.stack ++ [⟨n, attrs⟩], st.acc⟩ hbal2
            (by simp; omega) herr2 e
        · have hstep : walkStep cu fu ft tt tu st (.startElement n attrs) =
              .cont { st with stack := st.stack ++ [⟨n, attrs⟩] } := by
            simp [walkStep, eq_false_of_ne_true hfm, hto2]
          simp only [walkPage, hstep]
          exact ih (d + 1) { st with stack := st.stack ++ [⟨n, attrs⟩] } hbal2
            (by simp; omega) herr2 e
    | endElement n =>
      have hpos : 0 < d := by
        by_contra hle
        simp [streamBalanced, Nat.not_lt.mp (fun h => hle h)] at hbal
        omega
      have hbal2 : streamBalanced (d - 1) ts = true := by
        simp [streamBalanced] at hbal
        exact hbal.2
      have hne : st.stack ≠ [] := by
        intro hnil
        rw [hnil] at hd
        simp at hd
        omega
      obtain ⟨s, hrem, hlen⟩ := endTagRemove_some n st.stack hne
      have hstep : walkStep cu fu ft tt tu st (.endElement n) =
          .cont { st with stack := s } := by simp [walkStep, hrem]
      simp only [walkPage, hstep]
      exact ih (d - 1) { st with stack := s } hbal2 (by simp; omega) herr2 e
    | other =>
      have hbal2 : streamBalanced d ts = true := by simpa [streamBalanced] using hbal
      have hstep : walkStep cu fu ft tt tu st .other = .cont st := rfl
      simp only [walkPage, hstep]
      exact ih d st hbal2 hd herr2 e
    | errTok => exact absurd (List.mem_cons_self _ _) herr

/-! ### Claim C9: the per-page walk never faults on well-nested streams -/

/-- C9: on any event stream in which every end-element event is preceded
by its matching start-element event (depth strictly positive at every end
tag, as the well-formedness-enforcing tokenizer guarantees), the per-page
walk started with the empty stack never reaches the panic of the Rust
end-tag branch (`element_stack.len() - 1` underflow / `get(i).unwrap()`
out of bounds): every start tag is pushed, so the stack is non-empty at
every end-tag token. -/
theorem claim9_walk_never_panics (cu fu : String) (ft tt : Option String)
    (tu : Option String) (toks : List XmlTok) (skip : Bool) (a : String)
    (hbal : streamBalanced 0 toks = true) :
    walkPage cu fu ft tt tu toks ⟨skip, [], a⟩ ≠ .fail .panicked :=
  walk_no_panic cu fu ft tt tu toks 0 ⟨skip, [], a⟩ hbal (by simp)

/-- C9 witness: a concrete well-nested stream walks without a panic. -/
theorem claim9_walk_never_panics_witness :
    streamBalanced 0
      [XmlTok.startElement "a" [], XmlTok.characters "x", XmlTok.endElement "a"] =
        true ∧
    walkPage "p" "p" none none none
      [XmlTok.startElement "a" [], XmlTok.characters "x", XmlTok.endElement "a"]
      ⟨false, [], ""⟩ ≠ .fail .panicked :=
  ⟨rfl, claim9_walk_never_panics "p" "p" none none none
    [XmlTok.startElement "a" [], XmlTok.characters "x", XmlTok.endElement "a"]
    false "" rfl⟩

/-! ### Claim C1: start/stop anchor gating -/

/-- C1: with a start anchor carrying a fragment, character data occurring
before the first start tag satisfying the start condition contributes
nothing to the buffer (`skip_text` stays true and the buffer is unchanged
over such a prefix); and when a start tag satisfying the stop condition is
reached, the whole extraction returns `Ok` with exactly the text
accumulated up to that tag — the stop tag's content, the rest of its page
and every later page are never walked. -/
theorem claim1_start_stop_gating :
    (∀ (cu fu f : String) (tt : Option String) (tu : Option String)
       (pre : List XmlTok) (s : List EpubElement) (a : String) (st' : WalkState),
      (∀ n attrs, XmlTok.startElement n attrs ∈ pre →
        startMatchesFrom attrs (some f) cu fu = false) →
      walkPage cu fu (some f) tt tu pre ⟨true, s, a⟩ = .cont st' →
      st'.acc = a ∧ st'.skipText = true) ∧
    (∀ (book : Book) (fu : String) (ft : Option String) (t u : String)
       (c : Content) (later : List Content) (st : LoopState) (cu : String)
       (page : Nat) (pre rest : List XmlTok) (n : String)
       (attrs : List OwnedAttribute) (st' : WalkState),
      (splitn2Hash c.id).head? = some cu →
      book.resolve cu = some page →
      st.visited.contains page = false →
      book.pageContent page = some (pre ++ XmlTok.startElement n attrs :: rest) →
      walkPage cu fu ft (some t) (some u) pre ⟨st.skipText, [], st.acc⟩ = .cont st' →
      startMatchesTo attrs (some t) cu (some u) = true →
      (extractLoop book fu ft (some t) (some u) (c :: later) st).1 = .ok st'.acc) := by
  constructor
  · intro cu fu f tt tu pre s a st' hnm hw
    have h := walk_skipTrue cu fu (some f) tt tu pre ⟨true, s, a⟩ rfl hnm
    rw [hw] at h
    exact h
  · intro book fu ft t u c later st cu page pre rest n attrs st'
      hhead hres hvis hcontent hw hto
    simp only [extractLoop, hhead, hres, hvis, hcontent, Bool.false_eq_true,
      if_false]
    rw [walkPage_append, hw]
    have hstep : walkStep cu fu ft (some t) (some u) st'
        (XmlTok.startElement n attrs) = .stop st'.acc := by
      simp only [walkStep, hto, if_true]
      by_cases hfm : startMatchesFrom attrs ft cu fu = true <;> simp [hfm]
    simp only [walkPage, hstep]

/-- C1 witness: concrete instances of both parts — a character token
before the start tag leaves the buffer `"z"` untouched, and a page whose
second tag satisfies the stop condition makes the whole extraction return
exactly the text collected before it, ignoring the rest of the page and
the later toc entry. -/
theorem claim1_start_stop_gating_witness :
    (⟨true, [], "z"⟩ : WalkState).acc = "z" ∧
    (extractLoop
        ⟨fun _ => some 0,
         fun _ => some [XmlTok.characters "pre",
           XmlTok.startElement "div" [⟨"id", "stop"⟩], XmlTok.characters "post"]⟩
        "q" none (some "stop") (some "p")
        [⟨"p", 0, "c"⟩, ⟨"r", 1, "d"⟩] ⟨"", false, [], []⟩).1 =
      .ok "pre\n" :=
  ⟨(claim1_start_stop_gating.1 "p" "p" "start" none none
      [XmlTok.characters "before"] [] "z" ⟨true, [], "z"⟩
      (by intro n attrs h; simp at h) rfl).1,
   claim1_start_stop_gating.2
      ⟨fun _ => some 0,
       fun _ => some [XmlTok.characters "pre",
         XmlTok.startElement "div" [⟨"id", "stop"⟩], XmlTok.characters "post"]⟩
      "q" none "stop" "p" ⟨"p", 0, "c"⟩ [⟨"r", 1, "d"⟩] ⟨"", false, [], []⟩
      "p" 0 [XmlTok.characters "pre"] [XmlTok.characters "post"] "div"
      [⟨"id", "stop"⟩] ⟨false, [], "pre\n"⟩
      rfl rfl rfl rfl rfl rfl⟩

/-! ### Claim C10: a non-existent start fragment yields empty output -/

/-- C10: when the start anchor carries a fragment but no start tag on any
page of the iterated range satisfies the start condition (an `id`
attribute equal to the fragment on the page equal to the start anchor's
document path), `skip_text` never turns false and the extraction returns
`Ok` with the empty string, provided every page resolves, has content, and
its token stream is error-free and well-nested. -/
theorem claim10_missing_start_fragment_empty (book : Book) (fu f : String)
    (tt : Option String) (tu : Option String) (entries : List Content)
    (st : LoopState) (hskip : st.skipText = true) (hacc : st.acc = "")
    (hpages : ∀ c ∈ entries, ∀ cu, (splitn2Hash c.id).head? = some cu →
      ∃ page toks, book.resolve cu = some page ∧
        book.pageContent page = some toks ∧
        XmlTok.errTok ∉ toks ∧ streamBalanced 0 toks = true ∧
        (∀ n attrs, XmlTok.startElement n attrs ∈ toks →
          startMatchesFrom attrs (some f) cu fu = false)) :
    (extractLoop book fu (some f) tt tu entries st).1 = .ok "" := by
  induction entries generalizing st with
  | nil => simp [extractLoop, hacc]
  | cons c cs ih =>
    have hpages2 : ∀ c2 ∈ cs, ∀ cu, (splitn2Hash c2.id).head? = some cu →
        ∃ page toks, book.resolve cu = some page ∧
          book.pageContent page = some toks ∧
          XmlTok.errTok ∉ toks ∧ streamBalanced 0 toks = true ∧
          (∀ n attrs, XmlTok.startElement n attrs ∈ toks →
            startMatchesFrom attrs (some f) cu fu = false) :=
      fun c2 h2 => hpages c2 (List.mem_cons_of_mem _ h2)
    obtain ⟨page, toks, hres, hcont, herr, hbal, hnm⟩ :=
      hpages c (List.mem_cons_self _ _) (pathOf c.id) (splitn2Hash_head c.id)
    by_cases hv : st.visited.contains page = true
    · simp only [extractLoop, splitn2Hash_head, hres, hv, if_true]
      exact ih st hskip hacc hpages2
    · have hv2 : st.visited.contains page = false := eq_false_of_ne_true hv
      simp only [extractLoop, splitn2Hash_head, hres, hv2, Bool.false_eq_true,
        if_false, hcont]
      have hwalk := walk_skipTrue (pathOf c.id) fu (some f) tt tu toks
        ⟨st.skipText, [], st.acc⟩ hskip hnm
      have hnofail := walk_no_fail (pathOf c.id) fu (some f) tt tu toks 0
        ⟨st.skipText, [], st.acc⟩ hbal (by simp) herr
      cases hw : walkPage (pathOf c.id) fu (some f) tt tu toks
          ⟨st.skipText, [], st.acc⟩ with
      | cont w =>
        rw [hw] at hwalk
        exact ih ⟨w.acc, w.skipText, page :: st.visited, st.walked ++ [page]⟩
          hwalk.2 (by simp only [hwalk.1, hacc]) hpages2
      | stop out =>
        rw [hw] at hwalk
        simp only [hwalk, hacc]
      | fail e => exact absurd hw (hnofail e)

/-! ### Claim C5: each physical page is walked at most once -/

theorem extractLoop_walked_nodup (book : Book) (fu : String)
    (ft tt : Option String) (tu : Option String) (entries : List Content) :
    ∀ (st : LoopState), st.walked.Nodup →
      (∀ x ∈ st.walked, x ∈ st.visited) →
      ((extractLoop book fu ft tt tu entries st).2).Nodup := by
  induction entries with
  | nil => intro st hnd _; simpa [extractLoop] using hnd
  | cons c cs ih =>
    intro st hnd hsub
    rcases hh : (splitn2Hash c.id).head? with _ | cu
    · simp only [extractLoop, hh]
      simpa using hnd
    · rcases hres : book.resolve cu with _ | page
      · simp only [extractLoop, hh, hres]
        simpa using hnd
      · by_cases hv : st.visited.contains page = true
        · simp only [extractLoop, hh, hres, hv, if_true]
          exact ih st hnd hsub
        · have hv2 : st.visited.contains page = false := eq_false_of_ne_true hv
          have hpw : page ∉ st.walked := by
            intro hmem
            exact hv (List.elem_iff.mpr (hsub page hmem))
          have hnd2 : (st.walked ++ [page]).Nodup := by
            simp [List.nodup_append, hnd, hpw]
          rcases hpc : book.pageContent page with _ | toks
          · simp only [extractLoop, hh, hres, hv2, Bool.false_eq_true, if_false,
              hpc]
            simpa using hnd2
          · rcases hw : walkPage cu fu ft tt tu toks
                ⟨st.skipText, [], st.acc⟩ with w | out | e
            · simp only [extractLoop, hh, hres, hv2, Bool.false_eq_true,
                if_false, hpc, hw]
              apply ih ⟨w.acc, w.skipText, page :: st.visited, st.walked ++ [page]⟩
                  hnd2
              intro x hx
              simp only [List.mem_append, List.mem_singleton] at hx
              cases hx with
              | inl hx2 => exact List.mem_cons_of_mem _ (hsub x hx2)
              | inr hx2 => exact hx2 ▸ List.mem_cons_self _ _
            · simp only [extractLoop, hh, hres, hv2, Bool.false_eq_true,
                if_false, hpc, hw]
              simpa using hnd2
            · simp only [extractLoop, hh, hres, hv2, Bool.false_eq_true,
                if_false, hpc, hw]
              simpa using hnd2

/-- C5: within one extract call, every physical page is fetched and
token-walked at most once — the trace of pages actually walked has no
duplicates — and an entry resolving to an already-visited page is skipped
without re-fetching: the loop just moves on to the remaining entries. -/
theorem claim5_page_walked_at_most_once :
    (∀ (book : Book) (toc : List Content) (fid : String) (tid : Option String),
      ((extract_text_for_chapters_traced book toc fid tid).2).Nodup) ∧
    (∀ (book : Book) (fu : String) (ft tt : Option String) (tu : Option String)
       (c : Content) (cs : List Content) (st : LoopState) (cu : String)
       (page : Nat),
      (splitn2Hash c.id).head? = some cu →
      book.resolve cu = some page →
      st.visited.contains page = true →
      extractLoop book fu ft tt tu (c :: cs) st =
        extractLoop book fu ft tt tu cs st) := by
  constructor
  · intro book toc fid tid
    unfold extract_text_for_chapters_traced
    cases hpos : extract_positions fid tid with
    | error e => simp
    | ok q =>
      obtain ⟨fu, ft, tt, tu⟩ := q
      exact extractLoop_walked_nodup book fu ft tt tu _ _ (by simp) (by simp)
  · intro book fu ft tt tu c cs st cu page hh hres hv
    simp only [extractLoop, hh, hres, hv, if_true]

/-- C5 witness for the skipping conjunct: with page `7` already visited,
the loop treats the aliasing entry as a no-op. -/
theorem claim5_page_walked_at_most_once_witness :
    extractLoop ⟨fun _ => some 7, fun _ => some []⟩ "p" none none none
      [⟨"a", 0, "n"⟩, ⟨"b", 1, "m"⟩] ⟨"t", false, [7], [7]⟩ =
    extractLoop ⟨fun _ => some 7, fun _ => some []⟩ "p" none none none
      [⟨"b", 1, "m"⟩] ⟨"t", false, [7], [7]⟩ :=
  claim5_page_walked_at_most_once.2
    ⟨fun _ => some 7, fun _ => some []⟩ "p" none none none
    ⟨"a", 0, "n"⟩ [⟨"b", 1, "m"⟩] ⟨"t", false, [7], [7]⟩ "a" 7 rfl rfl rfl

/-! ### Claim C6: no partial result on error -/

/-- Two page-walk results agree in control flow: same continuation shape
(`skip_text` and stack), both stopped, or both failed with the same error. -/
def pageResultRel : PageResult → PageResult → Prop
  | .cont s1, .cont s2 => s1.skipText = s2.skipText ∧ s1.stack = s2.stack
  | .stop _, .stop _ => True
  | .fail e1, .fail e2 => e1 = e2
  | _, _ => False

/-- The walk's control flow is independent of the text already buffered:
runs differing only in the incoming buffer take the same branches. -/
theorem walk_acc_rel (cu fu : String) (ft tt : Option String)
    (tu : Option String) (toks : List XmlTok) :
    ∀ (skip : Bool) (stack : List EpubElement) (a b : String),
      pageResultRel (walkPage cu fu ft tt tu toks ⟨skip, stack, a⟩)
        (walkPage cu fu ft tt tu toks ⟨skip, stack, b⟩) := by
  induction toks with
  | nil => intro skip stack a b; simp [walkPage, pageResultRel]
  | cons t ts ih =>
    intro skip stack a b
    cases t with
    | characters c =>
      by_cases hc : (!skip && !(stack.any fun e => excludedName e.name)) = true
      · have h1 : walkStep cu fu ft tt tu ⟨skip, stack, a⟩ (.characters c) =
            .cont ⟨skip, stack, a ++ c ++ "\n"⟩ := by simp [walkStep, hc]
        have h2 : walkStep cu fu ft tt tu ⟨skip, stack, b⟩ (.characters c) =
            .cont ⟨skip, stack, b ++ c ++ "\n"⟩ := by simp [walkStep, hc]
        simp only [walkPage, h1, h2]
        exact ih skip stack _ _
      · have h1 : walkStep cu fu ft tt tu ⟨skip, stack, a⟩ (.characters c) =
            .cont ⟨skip, stack, a⟩ := by simp [walkStep, hc]
        have h2 : walkStep cu fu ft tt tu ⟨skip, stack, b⟩ (.characters c) =
            .cont ⟨skip, stack, b⟩ := by simp [walkStep, hc]
        simp only [walkPage, h1, h2]
        exact ih skip stack a b
    | startElement n attrs =>
      by_cases hto : startMatchesTo attrs tt cu tu = true
      · by_cases hfm : startMatchesFrom attrs ft cu fu = true
        · have h1 : walkStep cu fu ft tt tu ⟨skip, stack, a⟩
              (.startElement n attrs) = .stop a := by simp [walkStep, hfm, hto]
          have h2 : walkStep cu fu ft tt tu ⟨skip, stack, b⟩
              (.startElement n attrs) = .stop b := by simp [walkStep, hfm, hto]
          simp only [walkPage, h1, h2]
          trivial
        · have hfm2 := eq_false_of_ne_true hfm
          have h1 : walkStep cu fu ft tt tu ⟨skip, stack, a⟩
              (.startElement n attrs) = .stop a := by simp [walkStep, hfm2, hto]
          have h2 : walkStep cu fu ft tt tu ⟨skip, stack, b⟩
              (.startElement n attrs) = .stop b := by simp [walkStep, hfm2, hto]
          simp only [walkPage, h1, h2]
          trivial
      · have hto2 := eq_false_of_ne_true hto
        by_cases hfm : startMatchesFrom attrs ft cu fu = true
        · have h1 : walkStep cu fu ft tt tu ⟨skip, stack, a⟩
              (.startElement n attrs) =
              .cont ⟨false, stack ++ [⟨n, attrs⟩], a⟩ := by
            simp [walkStep, hfm, hto2]
          have h2 : walkStep cu fu ft tt tu ⟨skip, stack, b⟩
              (.startElement n attrs) =
              .cont ⟨false, stack ++ [⟨n, attrs⟩], b⟩ := by
            simp [walkStep, hfm, hto2]
          simp only [walkPage, h1, h2]
          exact ih false (stack ++ [⟨n, attrs⟩]) a b
        · have hfm2 := eq_false_of_ne_true hfm
          have h1 : walkStep cu fu ft tt tu ⟨skip, stack, a⟩
              (.startElement n attrs) =
              .cont ⟨skip, stack ++ [⟨n, attrs⟩], a⟩ := by
            simp [walkStep, hfm2, hto2]
          have h2 : walkStep cu fu ft tt tu ⟨skip, stack, b⟩
              (.startElement n attrs) =
              .cont ⟨skip, stack ++ [⟨n, attrs⟩], b⟩ := by
            simp [walkStep, hfm2, hto2]
          simp only [walkPage, h1, h2]
          exact ih skip (stack ++ [⟨n, attrs⟩]) a b
    | endElement n =>
      rcases hrem : endTagRemove n stack with _ | s
      · have h1 : walkStep cu fu ft tt tu ⟨skip, stack, a⟩ (.endElement n) =
            .fail .panicked := by simp [walkStep, hrem]
        have h2 : walkStep cu fu ft tt tu ⟨skip, stack, b⟩ (.endElement n) =
            .fail .panicked := by simp [walkStep, hrem]
        simp only [walkPage, h1, h2, pageResultRel]
      · have h1 : walkStep cu fu ft tt tu ⟨skip, stack, a⟩ (.endElement n) =
            .cont ⟨skip, s, a⟩ := by simp [walkStep, hrem]
        have h2 : walkStep cu fu ft tt tu ⟨skip, stack, b⟩ (.endElement n) =
            .cont ⟨skip, s, b⟩ := by simp [walkStep, hrem]
        simp only [walkPage, h1, h2]
        exact ih skip s a b
    | other =>
      have h1 : walkStep cu fu ft tt tu ⟨skip, stack, a⟩ .other =
          .cont ⟨skip, stack, a⟩ := rfl
      have h2 : walkStep cu fu ft tt tu ⟨skip, stack, b⟩ .other =
          .cont ⟨skip, stack, b⟩ := rfl
      simp only [walkPage, h1, h2]
      exact ih skip stack a b
    | errTok =>
      have h1 : walkStep cu fu ft tt tu ⟨skip, stack, a⟩ .errTok =
          .fail .parseFailure := rfl
      have h2 : walkStep cu fu ft tt tu ⟨skip, stack, b⟩ .errTok =
          .fail .parseFailure := rfl
      simp only [walkPage, h1, h2, pageResultRel]

/-- C6: whenever any step of the extraction loop fails, the call returns
only that error; the text accumulated in the buffer before the failure is
discarded and never returned — formally, whether the loop errs, and with
which error, is independent of the buffer's content, and the error value
carries no accumulated text. -/
theorem claim6_error_discards_buffer (book : Book) (fu : String)
    (ft tt : Option String) (tu : Option String) (entries : List Content) :
    ∀ (skip : Bool) (vis wal : List Nat) (a b : String) (e : ExtractErr),
      (extractLoop book fu ft tt tu entries ⟨a, skip, vis, wal⟩).1 = .err e →
      (extractLoop book fu ft tt tu entries ⟨b, skip, vis, wal⟩).1 = .err e := by
  induction entries with
  | nil =>
    intro skip vis wal a b e h
    simp [extractLoop] at h
  | cons c cs ih =>
    intro skip vis wal a b e h
    rcases hh : (splitn2Hash c.id).head? with _ | cu
    · simp only [extractLoop, hh] at h ⊢
      exact h
    · rcases hres : book.resolve cu with _ | page
      · simp only [extractLoop, hh, hres] at h ⊢
        exact h
      · by_cases hv : vis.contains page = true
        · simp only [extractLoop, hh, hres] at h ⊢
          rw [if_pos hv] at h ⊢
          exact ih skip vis wal a b e h
        · have hv2 : vis.contains page = false := eq_false_of_ne_true hv
          rcases hpc : book.pageContent page with _ | toks
          · simp only [extractLoop, hh, hres, LoopState.visited, hv2,
              Bool.false_eq_true, if_false, hpc] at h ⊢
            exact h
          · have hrel := walk_acc_rel cu fu ft tt tu toks skip [] a b
            rcases hwa : walkPage cu fu ft tt tu toks ⟨skip, [], a⟩ with w1 | o1 | e1 <;>
              rcases hwb : walkPage cu fu ft tt tu toks ⟨skip, [], b⟩ with w2 | o2 | e2 <;>
              rw [hwa, hwb] at hrel <;>
              simp only [pageResultRel] at hrel <;>
              simp only [extractLoop, hh, hres, LoopState.visited, hv2,
                Bool.false_eq_true, if_false, hpc, LoopState.skipText,
                LoopState.acc, hwa, hwb] at h ⊢
            · exact hrel.1 ▸ ih w1.skipText (page :: vis) (wal ++ [page])
                w1.acc w2.acc e h
            · simp at h
            · rw [← hrel]
              exact h


/-- C6 witness: a failing resolution yields the same `noChapter` error
whether the buffer already held text or was empty. -/
theorem claim6_error_discards_buffer_witness :
    (extractLoop ⟨fun _ => none, fun _ => none⟩ "p" none none none
      [⟨"a", 0, "n"⟩] ⟨"buffered text", true, [], []⟩).1 = .err .noChapter ∧
    (extractLoop ⟨fun _ => none, fun _ => none⟩ "p" none none none
      [⟨"a", 0, "n"⟩] ⟨"", true, [], []⟩).1 = .err .noChapter :=
  ⟨rfl, claim6_error_discards_buffer ⟨fun _ => none, fun _ => none⟩
    "p" none none none [⟨"a", 0, "n"⟩] true [] [] "buffered text" ""
    .noChapter rfl⟩

/-! ### Claim C8: an unmatched from-path yields empty text, not an error -/

/-- C8: when no toc entry's document-path component equals the `fromId`'s
document-path component, the filtered range is empty and the extraction
succeeds with the empty string. -/
theorem claim8_unmatched_from_path_yields_empty (book : Book)
    (toc : List Content) (fid : String) (tid : Option String)
    (h : ∀ e ∈ toc, pathOf e.id ≠ pathOf fid) :
    extract_text_for_chapters book toc fid tid = .ok "" := by
  unfold extract_text_for_chapters extract_text_for_chapters_traced
  rw [extract_positions_spec]
  have hfilter : filter_page_to_iterate_over
      (toc.mergeSort (fun a b => a.order ≤ b.order)) (pathOf fid)
      (tid.map pathOf) = [] := by
    unfold filter_page_to_iterate_over
    have hdrop : (toc.mergeSort (fun a b => a.order ≤ b.order)).dropWhile
        (fun e =>
          match (splitn2Hash e.id).head? with
          | some s => decide (s ≠ pathOf fid)
          | none => false) = [] := by
      apply List.dropWhile_eq_nil_iff.mpr
      intro e he
      have he2 : e ∈ toc := List.mem_mergeSort.mp he
      simp only [splitn2Hash_head]
      exact decide_eq_true (h e he2)
    rw [hdrop]
    rfl
  simp only [hfilter]
  rfl

/-- C8 witness: extracting from an id whose path occurs nowhere in the toc
returns `Ok ""`. -/
theorem claim8_unmatched_from_path_yields_empty_witness :
    extract_text_for_chapters ⟨fun _ => none, fun _ => none⟩
      [⟨"a", 0, "n"⟩, ⟨"b#x", 1, "m"⟩] "zzz#frag" none = .ok "" :=
  claim8_unmatched_from_path_yields_empty ⟨fun _ => none, fun _ => none⟩
    [⟨"a", 0, "n"⟩, ⟨"b#x", 1, "m"⟩] "zzz#frag" none (by decide)

/-- C10 witness: one page whose only `id` attribute differs from the start
fragment; the extraction returns `Ok ""`. -/
theorem claim10_missing_start_fragment_empty_witness :
    (extractLoop
      ⟨fun _ => some 0,
       fun _ => some [XmlTok.startElement "p" [⟨"id", "other"⟩],
         XmlTok.characters "hello", XmlTok.endElement "p"]⟩
      "p" (some "missing") none none [⟨"p", 0, "c"⟩]
      ⟨"", true, [], []⟩).1 = .ok "" := by
  apply claim10_missing_start_fragment_empty _ _ _ _ _ _ _ rfl rfl
  intro c hc cu hcu
  simp only [List.mem_singleton] at hc
  subst hc
  rw [splitn2Hash_head] at hcu
  have hcu2 : cu = pathOf "p" := (Option.some.inj hcu).symm
  subst hcu2
  refine ⟨0, _, rfl, rfl, by decide, rfl, ?_⟩
  intro n attrs hmem
  simp only [List.mem_cons, List.mem_singleton, List.not_mem_nil, or_false] at hmem
  rcases hmem with h1 | h2 | h3
  · rcases XmlTok.startElement.inj h1 with ⟨hn, hattrs⟩
    subst hn
    subst hattrs
    decide
  · exact absurd h2 (by simp)
  · exact absurd h3 (by simp)
